import Mathlib

/-!
Verification of the user-resource core of the `restful-best-practices`
Express service: cursor pagination (`UserController.getUsers`), partial
update (`UserController.updateUser`), query validation
(`userRoutes` + `validateRequest`), the version gate (`versionControl`)
and the TTL cache (`CacheService`).

Flat JS objects (the `any` records stored in `UserController.users`) are
embedded as insertion-ordered association lists from field names to string
values; the in-memory users array becomes a `List Obj`.
-/

set_option autoImplicit false

namespace Restful

/-- A flat JS record object: insertion-ordered association list from field
names to (string) field values. -/
abbrev Obj := List (String × String)

/-- Field access `o.k`: the value at the first occurrence of key `k`, or
`none` when the object has no such field (JS `undefined`). -/
def getField (o : Obj) (k : String) : Option String :=
  match o with
  | [] => none
  | (k', v) :: rest => if k' = k then some v else getField rest k

/-- Field assignment `o[k] = v`: replaces the value at an existing key in
place, otherwise appends the new key at the end — JS object-assignment
order semantics. -/
def setField (o : Obj) (k v : String) : Obj :=
  match o with
  | [] => [(k, v)]
  | (k', v') :: rest => if k' = k then (k, v) :: rest else (k', v') :: setField rest k v

/-- JS object spread `{...o, ...u}`: assign every field of `u` over `o`,
left to right. -/
def spreadMerge (o u : Obj) : Obj :=
  u.foldl (fun acc p => setField acc p.1 p.2) o

/-- `Array.prototype.findIndex` on the users array, with the `-1` miss
encoded as `none`. -/
def findIndexAux (p : Obj → Bool) : List Obj → Option Nat
  | [] => none
  | u :: rest => if p u then some 0 else (findIndexAux p rest).map (· + 1)

/-- `this.users.findIndex(u => u.id === cursor)`. -/
def findCursorIdx (users : List Obj) (c : String) : Option Nat :=
  findIndexAux (fun u => getField u "id" == some c) users

/-- The cursor filter of `getUsers`: `if (cursor) { const cursorIndex =
this.users.findIndex(u => u.id === cursor); filteredUsers =
this.users.slice(cursorIndex + 1); }`.  A `""` cursor is JS-falsy and skips
the branch; a missed cursor has `cursorIndex = -1`, so `slice(0)` restarts
from the beginning. -/
def applyCursor (users : List Obj) (cursor : Option String) : List Obj :=
  match cursor with
  | none => users
  | some c =>
    if c = "" then users
    else
      match findCursorIdx users c with
      | some i => users.drop (i + 1)
      | none => users

/-- `nextCursor = paginatedUsers.length > 0 ? paginatedUsers[last].id :
null`, followed by the truthiness guard `next: nextCursor ? {...} : null`
on the link: a missing or empty last id also yields no `next` link. -/
def nextCursorOf (paginated : List Obj) : Option String :=
  (paginated.getLast?.bind (fun u => getField u "id")).bind
    (fun s => if s = "" then none else some s)

/-- The page returned by `getUsers`: the `data` array and the `next`
link's cursor (absent when the link is `null`). -/
structure Page where
  data : List Obj
  next : Option String
deriving Repr, DecidableEq

/-- `UserController.getUsers`: clone the users array, apply the cursor
filter, `slice(0, limit)`, and compute the next link.  `selectedFields` is
computed from the `fields` query parameter exactly as in the source
(`String(fields).split(',')`) but — as in the source — never used. -/
def getUsers (users : List Obj) (cursor : Option String) (limit : Nat)
    (fields : Option String) : Page :=
  let _selectedFields := fields.map (fun s => s.splitOn ",")
  let filtered := applyCursor users cursor
  let paginated := filtered.take limit
  { data := paginated, next := nextCursorOf paginated }

/-- A record whose `id` field is present and JS-truthy (non-empty):
exactly the records the pagination link logic can point at. -/
def truthyId (u : Obj) : Bool :=
  match getField u "id" with
  | some s => s != ""
  | none => false

/-- The client loop of §8's pagination-completeness property: call
`getUsers`, follow the returned `next` cursor, stop when it is absent.
`fuel` pre-pays the number of iterations; the C4 theorem shows
`users.length + 1` iterations always reach a page with no `next`. -/
def listChain (users : List Obj) (limit : Nat) : Option String → Nat → List Page
  | _, 0 => []
  | cursor, fuel + 1 =>
    match (getUsers users cursor limit none).next with
    | none => [getUsers users cursor limit none]
    | some c => getUsers users cursor limit none :: listChain users limit (some c) fuel

/-- Result of `UserController.updateUser` (PATCH handler). -/
inductive UpdateResult where
  /-- `404 { error: 'Not Found', message: 'Usuario no encontrado' }`. -/
  | notFound
  /-- `200` with the updated record. -/
  | ok (user : Obj)
deriving Repr, DecidableEq

/-- `UserController.updateUser`: look up the record index with
`this.users.findIndex(u => u.id === id)`; on a miss answer 404; otherwise
replace the record in place with
`{ ...this.users[userIndex], ...updates, updated_at: now }` and answer
with the merged record.  Returns the response together with the users
array after the call. -/
def updateUser (users : List Obj) (id : String) (updates : Obj) (now : String) :
    UpdateResult × List Obj :=
  match findIndexAux (fun u => getField u "id" == some id) users with
  | none => (.notFound, users)
  | some i =>
    let merged := setField (spreadMerge (users.getD i []) updates) "updated_at" now
    (.ok merged, users.set i merged)

/-- Outcome of `GET /api/users` through the route's validation chain. -/
inductive ListResponse where
  /-- `400 { error: 'Validation Error', details: [...] }` from
  `validateRequest`. -/
  | badRequest (error : String)
  /-- `200` with the controller's page. -/
  | ok (page : Page)
deriving Repr, DecidableEq

/-- The `GET /` route of `userRoutes`: `query('limit').optional().isInt({
min: 1, max: 100 })` feeds `validateRequest`, which answers
`400 Validation Error` when the validator failed, and only then does
`userController.getUsers` run (with its `limit = 10` default when the
parameter is absent). -/
def listUsersRoute (users : List Obj) (cursor : Option String) (limit : Option Int)
    (fields : Option String) : ListResponse :=
  match limit with
  | some n =>
    if n < 1 ∨ 100 < n then .badRequest "Validation Error"
    else .ok (getUsers users cursor n.toNat fields)
  | none => .ok (getUsers users cursor 10 fields)

/-- `const supportedVersions = ['1.0', '1.1', '2.0']` in
`versionControl`. -/
def supportedVersions : List String := ["1.0", "1.1", "2.0"]

/-- The three deprecation headers `versionControl` sets for version
`'1.0'`. -/
def deprecationHeaders : List (String × String) :=
  [("Deprecation", "true"),
   ("Sunset", "Sat, 31 Dec 2023 23:59:59 GMT"),
   ("Link", "</api/v2>; rel=\"successor-version\"")]

/-- Outcome of the `versionControl` middleware. -/
inductive VersionOutcome where
  /-- `400` with the error, message and `supported_versions` list. -/
  | rejected (error message : String) (supported : List String)
  /-- `next()` is called; `version` is what `res.locals.apiVersion`
  receives and `headers` are the response headers set on the way. -/
  | accepted (version : String) (headers : List (String × String))
deriving Repr, DecidableEq

/-- `const version = req.headers['api-version'] || '1.0'`: the JS `||`
falls back to `'1.0'` both for an absent and for an empty header. -/
def resolvedVersion (header : Option String) : String :=
  match header with
  | none => "1.0"
  | some s => if s = "" then "1.0" else s

/-- The `versionControl` middleware: reject versions outside
`supportedVersions` with a 400 listing them; set the deprecation headers
for `'1.0'`; otherwise pass through with no extra headers. -/
def versionControl (header : Option String) : VersionOutcome :=
  if resolvedVersion header ∈ supportedVersions then
    if resolvedVersion header = "1.0" then
      .accepted (resolvedVersion header) deprecationHeaders
    else
      .accepted (resolvedVersion header) []
  else
    .rejected "Version Error" "Versión de API no soportada" supportedVersions

/-- Modelled from the spec: the `node-cache` store backing `CacheService`
(the `node-cache` library itself is not part of src/).  Entries map a key
to a value and an absolute expiry instant; `set(key, value, ttl)`
overwrites any existing entry under `key` and resets its expiry to
`now + ttl`; `get` returns the value only when the entry exists and its
expiry has not passed (the lazy expiry check). -/
structure TtlCache (α : Type) where
  entries : List (String × α × Nat)
deriving Repr, DecidableEq

/-- Modelled from the spec: store `value` under `key`, overwriting any
existing entry and resetting the expiry to `now + ttl`. -/
def TtlCache.set {α : Type} (c : TtlCache α) (key : String) (value : α)
    (now ttl : Nat) : TtlCache α :=
  ⟨(key, value, now + ttl) :: c.entries.filter (fun e => !(e.1 == key))⟩

/-- Modelled from the spec: read `key`, treating an entry whose expiry
has passed as absent. -/
def TtlCache.get {α : Type} (c : TtlCache α) (key : String) (now : Nat) : Option α :=
  match c.entries.find? (fun e => e.1 == key) with
  | none => none
  | some (_, v, ex) => if now < ex then some v else none

/-- `CacheService` from `src/services/cacheService.ts`: a thin wrapper
delegating `get`/`set` to the `node-cache` instance (`ttl` defaults to 60
at the TS call boundary; the embedding passes it explicitly). -/
structure CacheService (α : Type) where
  cache : TtlCache α
deriving Repr, DecidableEq

/-- `CacheService.get: return this.cache.get<T>(key)`. -/
def CacheService.get {α : Type} (s : CacheService α) (key : String) (now : Nat) :
    Option α :=
  s.cache.get key now

/-- `CacheService.set: return this.cache.set(key, value, ttl)`. -/
def CacheService.set {α : Type} (s : CacheService α) (key : String) (value : α)
    (now ttl : Nat) : CacheService α :=
  ⟨s.cache.set key value now ttl⟩

/-- The mutable state of a `UserController` instance: its private
`users` array. -/
structure ServerState where
  users : List Obj
deriving Repr, DecidableEq

/-- `UserController.getUsers` as a state transformer on the controller
state.  The method body only reads `this.users` — it clones the array
(`[...this.users]`) and builds the page out of `slice`/`findIndex`
results, never assigning to `this.users` or to any element of it — so the
resulting state is the incoming one. -/
def getUsersOp (s : ServerState) (cursor : Option String) (limit : Nat)
    (fields : Option String) : Page × ServerState :=
  (getUsers s.users cursor limit fields, s)

/-- `UserController.createUser` as a state transformer: push the freshly
built record onto `this.users`. -/
def createUserOp (s : ServerState) (newId user_name email birth_date now : String) :
    Obj × ServerState :=
  let newUser : Obj :=
    [("id", newId), ("user_name", user_name), ("email", email),
     ("birth_date", birth_date), ("created_at", now)]
  (newUser, ⟨s.users ++ [newUser]⟩)

/-- `UserController.updateUser` as a state transformer. -/
def updateUserOp (s : ServerState) (id : String) (updates : Obj) (now : String) :
    UpdateResult × ServerState :=
  let r := updateUser s.users id updates now
  (r.1, ⟨r.2⟩)

/-- Store for the C2 counterexample: a single record `A`. -/
def shortPageUsers : List Obj := [[("id", "a")]]

/-- Store for the C3 failing input: one record with two fields. -/
def fieldsUsers : List Obj := [[("id", "a"), ("user_name", "bob")]]

/-- Store for the C4 witness: records `A`, `B`, `C` created in order. -/
def chainUsers : List Obj := [[("id", "a")], [("id", "b")], [("id", "c")]]

/-- Store for the C6 witness. -/
def mergeUsers : List Obj :=
  [[("id", "a"), ("user_name", "ann"), ("email", "ann@x"), ("created_at", "t0")]]

/-- Update body for the C6 witness. -/
def mergeUpdates : Obj := [("email", "e2"), ("user_name", "al")]

/-- Empty cache over `Nat` values for the C8 witness. -/
def emptyNatCache : CacheService Nat := ⟨⟨[]⟩⟩

/-- Store for the C7 failing input: one record with its creation data. -/
def immutableUsers : List Obj := [[("id", "a"), ("created_at", "t0")]]

theorem getUsers_data (users : List Obj) (cursor : Option String) (limit : Nat)
    (fields : Option String) :
    (getUsers users cursor limit fields).data = (applyCursor users cursor).take limit := rfl

theorem getUsers_next (users : List Obj) (cursor : Option String) (limit : Nat)
    (fields : Option String) :
    (getUsers users cursor limit fields).next =
      nextCursorOf ((applyCursor users cursor).take limit) := rfl

theorem truthyId_spec (u : Obj) (h : truthyId u = true) :
    ∃ s, getField u "id" = some s ∧ s ≠ "" := by
  unfold truthyId at h
  cases hid : getField u "id" with
  | none => rw [hid] at h; exact absurd h (by simp)
  | some s =>
    rw [hid] at h
    exact ⟨s, rfl, by simpa using h⟩

theorem getField_eq_none_of_not_mem (o : Obj) (k : String)
    (h : k ∉ o.map Prod.fst) : getField o k = none := by
  induction o with
  | nil => rfl
  | cons p rest ih =>
    simp only [List.map_cons, List.mem_cons] at h
    push_neg at h
    simp only [getField]
    rw [if_neg (fun hk => h.1 hk.symm)]
    exact ih h.2

theorem getField_setField_self (o : Obj) (k v : String) :
    getField (setField o k v) k = some v := by
  induction o with
  | nil => simp [setField, getField]
  | cons p rest ih =>
    by_cases h : p.1 = k
    · simp [setField, getField, h]
    · simp only [setField]
      rw [if_neg h]
      simp only [getField]
      rw [if_neg h]
      exact ih

theorem getField_setField_ne (o : Obj) (k v k' : String) (h : k' ≠ k) :
    getField (setField o k v) k' = getField o k' := by
  induction o with
  | nil =>
    simp only [setField, getField]
    rw [if_neg (fun hk => h hk.symm)]
  | cons p rest ih =>
    by_cases hp : p.1 = k
    · have hne : ¬ p.1 = k' := by rw [hp]; exact fun hk => h hk.symm
      simp only [setField]
      rw [if_pos hp]
      simp only [getField]
      rw [if_neg (fun hk => h hk.symm), if_neg hne]
    · simp only [setField]
      rw [if_neg hp]
      simp only [getField]
      by_cases hp' : p.1 = k'
      · rw [if_pos hp', if_pos hp']
      · rw [if_neg hp', if_neg hp']
        exact ih

/-- Characterisation of the JS spread `{...o, ...u}` for a well-formed `u`
(no duplicate keys): a field of `u` fully replaces the prior value, a field
absent from `u` is untouched. -/
theorem getField_spreadMerge (o u : Obj) (hu : (u.map Prod.fst).Nodup) (k : String) :
    getField (spreadMerge o u) k = (getField u k).elim (getField o k) some := by
  induction u generalizing o with
  | nil => simp [spreadMerge, getField]
  | cons p rest ih =>
    simp only [List.map_cons, List.nodup_cons] at hu
    have hstep : spreadMerge o (p :: rest) = spreadMerge (setField o p.1 p.2) rest := by
      simp [spreadMerge, List.foldl_cons]
    rw [hstep, ih _ hu.2]
    by_cases hk : p.1 = k
    · subst hk
      have hrest : getField rest p.1 = none :=
        getField_eq_none_of_not_mem rest p.1 hu.1
      simp [getField, hrest, getField_setField_self]
    · simp only [getField]
      rw [if_neg hk, getField_setField_ne o p.1 p.2 k (fun h => hk h.symm)]

theorem findIndexAux_eq_none (p : Obj → Bool) (l : List Obj)
    (h : ∀ u ∈ l, p u = false) : findIndexAux p l = none := by
  induction l with
  | nil => rfl
  | cons u rest ih =>
    simp only [findIndexAux]
    rw [if_neg (by simp [h u (by simp)])]
    rw [ih (fun v hv => h v (by simp [hv]))]
    rfl

theorem findIndexAux_append (p : Obj → Bool) (pre : List Obj) (u : Obj)
    (rest : List Obj) (hpre : ∀ v ∈ pre, p v = false) (hu : p u = true) :
    findIndexAux p (pre ++ u :: rest) = some pre.length := by
  induction pre with
  | nil => simp [findIndexAux, hu]
  | cons v pre' ih =>
    have hv : p v = false := hpre v (by simp)
    simp only [List.cons_append, findIndexAux, List.append_eq]
    rw [if_neg (by simp [hv])]
    rw [ih (fun w hw => hpre w (by simp [hw]))]
    rfl

theorem applyCursor_found (users : List Obj) (c : String) (i : Nat) (hc : c ≠ "")
    (h : findCursorIdx users c = some i) :
    applyCursor users (some c) = users.drop (i + 1) := by
  simp only [applyCursor]
  rw [if_neg hc, h]

theorem applyCursor_notFound (users : List Obj) (c : String)
    (h : findCursorIdx users c = none) :
    applyCursor users (some c) = users := by
  by_cases hc : c = ""
  · simp [applyCursor, hc]
  · simp only [applyCursor]
    rw [if_neg hc, h]

/-- Pointing the cursor at the id of a stored record resumes strictly
after that record, provided ids are unique across the store. -/
theorem applyCursor_mem (pre : List Obj) (u : Obj) (rest : List Obj) (s : String)
    (hnd : ((pre ++ u :: rest).map (fun v => getField v "id")).Nodup)
    (hid : getField u "id" = some s) (hs : s ≠ "") :
    applyCursor (pre ++ u :: rest) (some s) = rest := by
  have hpre : ∀ v ∈ pre, (getField v "id" == some s) = false := by
    intro v hv
    simp only [List.map_append, List.map_cons, List.nodup_append] at hnd
    have hne : getField v "id" ≠ some s := by
      intro hvs
      have h1 : getField v "id" ∈ pre.map (fun w => getField w "id") :=
        List.mem_map_of_mem _ hv
      have h2 : getField v "id" ∈ getField u "id" :: rest.map (fun w => getField w "id") := by
        rw [hvs, ← hid]
        exact List.mem_cons_self _ _
      exact hnd.2.2 h1 h2
    simpa using hne
  have hfind : findCursorIdx (pre ++ u :: rest) s = some pre.length :=
    findIndexAux_append _ pre u rest hpre (by simp [hid])
  rw [applyCursor_found _ _ _ hs hfind]
  have hsplit : pre ++ u :: rest = (pre ++ [u]) ++ rest := by simp
  rw [hsplit]
  have hlen : pre.length + 1 = (pre ++ [u]).length := by simp
  rw [hlen, List.drop_left]

theorem applyCursor_subset (users : List Obj) (cursor : Option String) :
    applyCursor users cursor ⊆ users := by
  cases cursor with
  | none => exact fun a h => h
  | some c =>
    by_cases hc : c = ""
    · simp [applyCursor, hc]
    · simp only [applyCursor]
      rw [if_neg hc]
      cases hfc : findCursorIdx users c with
      | some i => exact List.drop_subset _ _
      | none => exact fun a h => h

theorem page_eq (p q : Page) (hd : p.data = q.data) (hn : p.next = q.next) : p = q := by
  cases p; cases q; cases hd; cases hn; rfl

theorem getLast?_eq_append {α : Type} (l : List α) (u : α) (h : l.getLast? = some u) :
    ∃ l', l = l' ++ [u] := by
  induction l with
  | nil => simp at h
  | cons a t ih =>
    cases t with
    | nil =>
      simp [List.getLast?] at h
      exact ⟨[], by simp [h]⟩
    | cons b t' =>
      rw [List.getLast?_cons_cons] at h
      obtain ⟨l', hl'⟩ := ih h
      exact ⟨a :: l', by simp [hl']⟩

theorem getLast?_cons_of_ne_nil {α : Type} (a : α) (l : List α) (h : l ≠ []) :
    (a :: l).getLast? = l.getLast? := by
  cases l with
  | nil => exact absurd rfl h
  | cons b t => rw [List.getLast?_cons_cons]

theorem getLast?_isSome_of_ne_nil {α : Type} (l : List α) (h : l ≠ []) :
    ∃ u, l.getLast? = some u := by
  induction l with
  | nil => exact absurd rfl h
  | cons a t ih =>
    cases t with
    | nil => exact ⟨a, by simp [List.getLast?]⟩
    | cons b t' =>
      obtain ⟨u, hu⟩ := ih (by simp)
      exact ⟨u, by rw [List.getLast?_cons_cons]; exact hu⟩

theorem nextCursorOf_nil : nextCursorOf [] = none := rfl

theorem nextCursorOf_some (l : List Obj) (u : Obj) (s : String)
    (h : l.getLast? = some u) (hid : getField u "id" = some s) (hs : s ≠ "") :
    nextCursorOf l = some s := by
  unfold nextCursorOf
  rw [h, Option.some_bind, hid, Option.some_bind, if_neg hs]

theorem nextCursorOf_eq_none (l : List Obj) (h : l.getLast? = none) :
    nextCursorOf l = none := by
  unfold nextCursorOf
  rw [h, Option.none_bind, Option.none_bind]

/-- C1: if the supplied cursor id does not occur in the store, `getUsers`
returns the same page as a cursorless call — records from the beginning of
the insertion-ordered collection — instead of failing (the `findIndex`
miss gives `-1`, so `slice(0)` restarts). -/
theorem getUsers_cursor_miss (users : List Obj) (c : String) (limit : Nat)
    (fields : Option String)
    (h : ∀ u ∈ users, getField u "id" ≠ some c) :
    getUsers users (some c) limit fields = getUsers users none limit fields ∧
    (getUsers users (some c) limit fields).data = users.take limit := by
  have happ : applyCursor users (some c) = users := by
    by_cases hc : c = ""
    · simp [applyCursor, hc]
    · exact applyCursor_notFound users c
        (findIndexAux_eq_none _ _ (fun u hu => by simp [h u hu]))
  constructor
  · apply page_eq
    · rw [getUsers_data, getUsers_data, happ]; rfl
    · rw [getUsers_next, getUsers_next, happ]; rfl
  · rw [getUsers_data, happ]

theorem getUsers_cursor_miss_witness :
    (∀ u ∈ chainUsers, getField u "id" ≠ some "zz") ∧
    (getUsers chainUsers (some "zz") 2 none = getUsers chainUsers none 2 none ∧
     (getUsers chainUsers (some "zz") 2 none).data = chainUsers.take 2) :=
  ⟨by decide, getUsers_cursor_miss chainUsers "zz" 2 none (by decide)⟩

/-- C2 counterexample: with the single-record store and `limit = 2`, the
page holds one record — fewer than the limit — yet the code still emits a
`next` cursor (the id of that record), so "next is absent when fewer
records than the limit were returned" is false of the code. -/
theorem shortPage_has_next :
    (getUsers shortPageUsers none 2 none).data.length = 1 ∧
    (getUsers shortPageUsers none 2 none).next = some "a" := by decide

/-- C2 as amended: the `next` cursor/link is absent iff the returned page
is empty (for stores whose records carry non-empty ids), and on a
non-empty page it is the id of the last returned record; a non-empty final
page shorter than the limit still carries `next`. -/
theorem next_iff_page_nonempty (users : List Obj) (cursor : Option String)
    (limit : Nat) (fields : Option String)
    (hids : ∀ u ∈ users, truthyId u = true) :
    ((getUsers users cursor limit fields).next = none ↔
      (getUsers users cursor limit fields).data = []) ∧
    (∀ u, (getUsers users cursor limit fields).data.getLast? = some u →
      (getUsers users cursor limit fields).next = getField u "id") := by
  rw [getUsers_next, getUsers_data]
  have hsub : ∀ u ∈ (applyCursor users cursor).take limit, u ∈ users := fun u hu =>
    applyCursor_subset users cursor (List.take_subset _ _ hu)
  have hlastmem : ∀ u, ((applyCursor users cursor).take limit).getLast? = some u →
      u ∈ users := by
    intro u hu
    obtain ⟨l', hl'⟩ := getLast?_eq_append _ u hu
    exact hsub u (by rw [hl']; simp)
  constructor
  · cases hnil : (applyCursor users cursor).take limit with
    | nil => simp [nextCursorOf_nil]
    | cons a t =>
      obtain ⟨u, hlast⟩ := getLast?_isSome_of_ne_nil (a :: t) (by simp)
      obtain ⟨s, hid, hs⟩ := truthyId_spec u (hids u (hlastmem u (by rw [hnil]; exact hlast)))
      rw [nextCursorOf_some _ u s hlast hid hs]
      exact iff_of_false (by simp) (by simp)
  · intro u hu
    obtain ⟨s, hid, hs⟩ := truthyId_spec u (hids u (hlastmem u hu))
    rw [nextCursorOf_some _ u s hu hid hs, hid]

theorem next_iff_page_nonempty_witness :
    (∀ u ∈ chainUsers, truthyId u = true) ∧
    (((getUsers chainUsers none 2 none).next = none ↔
        (getUsers chainUsers none 2 none).data = []) ∧
     (∀ u, (getUsers chainUsers none 2 none).data.getLast? = some u →
        (getUsers chainUsers none 2 none).next = getField u "id")) :=
  ⟨by decide, next_iff_page_nonempty chainUsers none 2 none (by decide)⟩

/-- C3 (code-bug evidence): `getUsers` computes `selectedFields` from the
`fields` query parameter but never applies it, so with selector `"id"` the
returned record still carries its `user_name` field — the output fields
are not a subset of the selector, contradicting the documented projection
policy. -/
theorem getUsers_fields_not_projected :
    (getUsers fieldsUsers none 10 (some "id")).data =
      [[("id", "a"), ("user_name", "bob")]] ∧
    getField ((getUsers fieldsUsers none 10 (some "id")).data.getD 0 []) "user_name" =
      some "bob" := by decide

/-- C5: the version gate resolves the declared version (defaulting to
`"1.0"` when unspecified); a version outside `{1.0, 1.1, 2.0}` is rejected
with an error listing the supported versions; `"1.0"` — the oldest
supported — is accepted with the non-empty deprecation metadata
(Deprecation flag, Sunset timestamp, successor Link); any other supported
version is accepted with no deprecation metadata. -/
theorem versionControl_correct (header : Option String) :
    (header = none → resolvedVersion header = "1.0") ∧
    (resolvedVersion header ∉ supportedVersions →
      versionControl header =
        .rejected "Version Error" "Versión de API no soportada" supportedVersions) ∧
    (resolvedVersion header = "1.0" →
      versionControl header = .accepted "1.0" deprecationHeaders ∧
      deprecationHeaders ≠ [] ∧
      ("Deprecation", "true") ∈ deprecationHeaders ∧
      ("Sunset", "Sat, 31 Dec 2023 23:59:59 GMT") ∈ deprecationHeaders ∧
      ("Link", "</api/v2>; rel=\"successor-version\"") ∈ deprecationHeaders) ∧
    (resolvedVersion header ∈ supportedVersions → resolvedVersion header ≠ "1.0" →
      versionControl header = .accepted (resolvedVersion header) []) := by
  refine ⟨?_, ?_, ?_, ?_⟩
  · intro h; rw [h]; rfl
  · intro h
    unfold versionControl
    rw [if_neg h]
  · intro h
    refine ⟨?_, by decide, by decide, by decide, by decide⟩
    unfold versionControl
    rw [h]
    decide
  · intro h1 h2
    unfold versionControl
    rw [if_pos h1, if_neg h2]

theorem versionControl_correct_witness :
    ((some "9.9" : Option String) = none → resolvedVersion (some "9.9") = "1.0") ∧
    (resolvedVersion (some "9.9") ∉ supportedVersions →
      versionControl (some "9.9") =
        .rejected "Version Error" "Versión de API no soportada" supportedVersions) ∧
    (resolvedVersion (some "9.9") = "1.0" →
      versionControl (some "9.9") = .accepted "1.0" deprecationHeaders ∧
      deprecationHeaders ≠ [] ∧
      ("Deprecation", "true") ∈ deprecationHeaders ∧
      ("Sunset", "Sat, 31 Dec 2023 23:59:59 GMT") ∈ deprecationHeaders ∧
      ("Link", "</api/v2>; rel=\"successor-version\"") ∈ deprecationHeaders) ∧
    (resolvedVersion (some "9.9") ∈ supportedVersions →
      resolvedVersion (some "9.9") ≠ "1.0" →
      versionControl (some "9.9") = .accepted (resolvedVersion (some "9.9")) []) :=
  versionControl_correct (some "9.9")

/-- C7 (code-bug evidence): `updateUser` merges the request body with
`{ ...existing, ...updates, updated_at }`, so a body carrying `id` or
`created_at` keys overwrites the immutable creation data: updating record
`"a"` with `{id: "b", created_at: "t9"}` yields a record whose `id` is
`"b"` and whose `created_at` is `"t9"`, both changed from creation. -/
theorem updateUser_overwrites_immutable :
    (updateUser immutableUsers "a" [("id", "b"), ("created_at", "t9")] "t1").1 =
      .ok [("id", "b"), ("created_at", "t9"), ("updated_at", "t1")] ∧
    (updateUser immutableUsers "a" [("id", "b"), ("created_at", "t9")] "t1").2 =
      [[("id", "b"), ("created_at", "t9"), ("updated_at", "t1")]] := by decide

/-- C8 (cache model from the spec, the `node-cache` library being outside
src/): a second `set` under the same key overwrites the first and resets
the expiry, so a `get` before the new expiry returns `v2`, and no value
other than `v2` — in particular never `v1` — is ever returned. -/
theorem cache_overwrite {α : Type} (s : CacheService α) (k : String) (v1 v2 : α)
    (t1 ttl1 t2 ttl2 now : Nat) (hfresh : now < t2 + ttl2) :
    ((s.set k v1 t1 ttl1).set k v2 t2 ttl2).get k now = some v2 ∧
    ∀ w, w ≠ v2 → ((s.set k v1 t1 ttl1).set k v2 t2 ttl2).get k now ≠ some w := by
  have hget : ((s.set k v1 t1 ttl1).set k v2 t2 ttl2).get k now = some v2 := by
    unfold CacheService.get CacheService.set TtlCache.set TtlCache.get
    rw [List.find?_cons_of_pos _ (by simp)]
    simp [hfresh]
  exact ⟨hget, fun w hw hww => hw (by rw [hget] at hww; exact (Option.some.inj hww).symm)⟩

theorem cache_overwrite_witness :
    ((5 : Nat) < 2 + 60) ∧
    (((emptyNatCache.set "k" 1 0 60).set "k" 2 2 60).get "k" 5 = some 2 ∧
     ∀ w, w ≠ 2 → ((emptyNatCache.set "k" 1 0 60).set "k" 2 2 60).get "k" 5 ≠ some w) :=
  ⟨by decide, cache_overwrite emptyNatCache "k" 1 2 0 60 2 60 5 (by decide)⟩

/-- C9: a `limit` query parameter outside `[1, 100]` fails the route's
validator, so `validateRequest` answers `400 Validation Error` (the
spec's `InvalidArgument`) for every store contents — the controller, and
with it the store, is never reached and no page is produced. -/
theorem limit_out_of_range_rejected (users : List Obj) (cursor : Option String)
    (fields : Option String) (n : Int) (h : n < 1 ∨ 100 < n) :
    listUsersRoute users cursor (some n) fields = .badRequest "Validation Error" ∧
    (∀ pg, listUsersRoute users cursor (some n) fields ≠ .ok pg) ∧
    listUsersRoute users cursor (some n) fields =
      listUsersRoute [] cursor (some n) fields := by
  have hfst : ∀ us : List Obj,
      listUsersRoute us cursor (some n) fields = .badRequest "Validation Error" := by
    intro us
    simp only [listUsersRoute]
    rw [if_pos h]
  refine ⟨hfst users, ?_, by rw [hfst users, hfst []]⟩
  intro pg hpg
  rw [hfst users] at hpg
  exact ListResponse.noConfusion hpg

theorem limit_out_of_range_rejected_witness :
    ((101 : Int) < 1 ∨ 100 < (101 : Int)) ∧
    (listUsersRoute chainUsers none (some 101) none = .badRequest "Validation Error" ∧
     (∀ pg, listUsersRoute chainUsers none (some 101) none ≠ .ok pg) ∧
     listUsersRoute chainUsers none (some 101) none =
       listUsersRoute [] none (some 101) none) :=
  ⟨by decide, limit_out_of_range_rejected chainUsers none none 101 (by decide)⟩

/-- C10: the list operation never mutates the stored collection — as a
state transformer on the controller state, `getUsers` leaves the users
array (identity, contents and order) exactly as it was. -/
theorem getUsersOp_frame (s : ServerState) (cursor : Option String) (limit : Nat)
    (fields : Option String) :
    (getUsersOp s cursor limit fields).2 = s ∧
    (getUsersOp s cursor limit fields).2.users = s.users :=
  ⟨rfl, rfl⟩

theorem findIndexAux_none_iff_find?_none (p : Obj → Bool) (l : List Obj) :
    findIndexAux p l = none ↔ l.find? p = none := by
  induction l with
  | nil => simp [findIndexAux]
  | cons v rest ih =>
    by_cases hv : p v = true
    · simp only [findIndexAux]
      rw [if_pos hv, List.find?_cons_of_pos _ hv]
      simp
    · have hv' : p v = false := by simpa using hv
      simp only [findIndexAux]
      rw [if_neg (by simp [hv']), List.find?_cons_of_neg _ (by simp [hv'])]
      cases hfi : findIndexAux p rest with
      | none => simp [← ih, hfi]
      | some i => simp [← ih, hfi]

theorem find?_of_findIndexAux (p : Obj → Bool) (l : List Obj) (i : Nat)
    (h : findIndexAux p l = some i) : l.find? p = some (l.getD i []) := by
  induction l generalizing i with
  | nil => simp [findIndexAux] at h
  | cons v rest ih =>
    by_cases hv : p v = true
    · simp only [findIndexAux] at h
      rw [if_pos hv] at h
      cases h
      rw [List.find?_cons_of_pos _ hv]
      rfl
    · have hv' : p v = false := by simpa using hv
      simp only [findIndexAux] at h
      rw [if_neg (by simp [hv'])] at h
      cases hfi : findIndexAux p rest with
      | none => rw [hfi] at h; simp at h
      | some j =>
        rw [hfi] at h
        simp at h
        subst h
        rw [List.find?_cons_of_neg _ (by simp [hv']), ih j hfi]
        rfl

/-- The response of `updateUser` expressed through the first matching
record: 404 when `find?` misses, otherwise the found record spread-merged
with the updates and stamped. -/
theorem updateUser_result (users : List Obj) (id : String) (updates : Obj)
    (now : String) :
    (updateUser users id updates now).1 =
      match users.find? (fun u => getField u "id" == some id) with
      | none => .notFound
      | some u => .ok (setField (spreadMerge u updates) "updated_at" now) := by
  cases hfi : findIndexAux (fun u => getField u "id" == some id) users with
  | none =>
    have hf : users.find? (fun u => getField u "id" == some id) = none :=
      (findIndexAux_none_iff_find?_none _ _).mp hfi
    simp only [updateUser]
    rw [hfi, hf]
  | some i =>
    have hf : users.find? (fun u => getField u "id" == some id) = some (users.getD i []) :=
      find?_of_findIndexAux _ _ i hfi
    simp only [updateUser]
    rw [hfi, hf]

/-- C6: `update(id, partialFields)` answers NotFound iff no record with
that id exists; on success it returns the existing (first matching) record
shallow-merged with the updates — each provided field fully replaces the
prior value, omitted fields are untouched — with `updated_at` stamped to
the current time. -/
theorem updateUser_correct (users : List Obj) (id : String) (updates : Obj)
    (now : String) (hu : (updates.map Prod.fst).Nodup) :
    ((updateUser users id updates now).1 = .notFound ↔
      ∀ u ∈ users, getField u "id" ≠ some id) ∧
    (∀ u, users.find? (fun w => getField w "id" == some id) = some u →
      (updateUser users id updates now).1 =
        .ok (setField (spreadMerge u updates) "updated_at" now) ∧
      getField (setField (spreadMerge u updates) "updated_at" now) "updated_at" =
        some now ∧
      (∀ k, k ≠ "updated_at" →
        getField (setField (spreadMerge u updates) "updated_at" now) k =
          (getField updates k).elim (getField u k) some)) := by
  constructor
  · rw [updateUser_result]
    cases hf : users.find? (fun w => getField w "id" == some id) with
    | none =>
      apply iff_of_true rfl
      intro u hu' hid
      have := List.find?_eq_none.mp hf u hu'
      simp [hid] at this
    | some u =>
      apply iff_of_false
      · intro h; exact UpdateResult.noConfusion h
      · intro hall
        have hmem := List.mem_of_find?_eq_some hf
        have hp := List.find?_some hf
        exact absurd (by simpa using hp) (hall u hmem)
  · intro u hf
    refine ⟨by rw [updateUser_result, hf], getField_setField_self _ _ _, ?_⟩
    intro k hk
    rw [getField_setField_ne _ _ _ _ hk, getField_spreadMerge _ _ hu k]

theorem updateUser_correct_witness :
    (mergeUpdates.map Prod.fst).Nodup ∧
    (((updateUser mergeUsers "a" mergeUpdates "t1").1 = .notFound ↔
        ∀ u ∈ mergeUsers, getField u "id" ≠ some "a") ∧
     (∀ u, mergeUsers.find? (fun w => getField w "id" == some "a") = some u →
       (updateUser mergeUsers "a" mergeUpdates "t1").1 =
         .ok (setField (spreadMerge u mergeUpdates) "updated_at" "t1") ∧
       getField (setField (spreadMerge u mergeUpdates) "updated_at" "t1") "updated_at" =
         some "t1" ∧
       (∀ k, k ≠ "updated_at" →
         getField (setField (spreadMerge u mergeUpdates) "updated_at" "t1") k =
           (getField mergeUpdates k).elim (getField u k) some))) :=
  ⟨by decide, updateUser_correct mergeUsers "a" mergeUpdates "t1" (by decide)⟩

/-- Invariant of the pagination loop: when the cursor resolves to the
suffix `rest` of the store and the fuel exceeds `rest.length`, the chain
of pages covers exactly `rest` in order and its last page has no `next`. -/
theorem listChain_spec (users : List Obj) (P : Nat) (hP : 0 < P)
    (hnd : (users.map (fun u => getField u "id")).Nodup)
    (hids : ∀ u ∈ users, truthyId u = true) :
    ∀ (fuel : Nat) (c : Option String) (pre rest : List Obj),
      users = pre ++ rest → applyCursor users c = rest → rest.length < fuel →
      ((listChain users P c fuel).map Page.data).flatten = rest ∧
      ∃ pg, (listChain users P c fuel).getLast? = some pg ∧ pg.next = none := by
  intro fuel
  induction fuel with
  | zero => intro c pre rest _ _ hlen; omega
  | succ fuel ih =>
    intro c pre rest hsplit happ hlen
    have hdata : (getUsers users c P none).data = rest.take P := by
      rw [getUsers_data, happ]
    cases rest with
    | nil =>
      have hnext0 : (getUsers users c P none).next = none := by
        rw [getUsers_next, happ]
        exact nextCursorOf_eq_none _ (by simp)
      have hchain : listChain users P c (fuel + 1) = [getUsers users c P none] := by
        simp only [listChain]
        rw [hnext0]
      refine ⟨?_, getUsers users c P none, ?_, hnext0⟩
      · rw [hchain]
        simp [hdata]
      · rw [hchain]
        rfl
    | cons r0 rest' =>
      have htake_ne : (r0 :: rest').take P ≠ [] := by
        cases P with
        | zero => omega
        | succ p => simp
      obtain ⟨u, hlast⟩ := getLast?_isSome_of_ne_nil _ htake_ne
      obtain ⟨l1, hl1⟩ := getLast?_eq_append _ u hlast
      have humem : u ∈ users := by
        rw [hsplit]
        have : u ∈ (r0 :: rest').take P := by rw [hl1]; simp
        exact List.mem_append_right pre (List.take_subset _ _ this)
      obtain ⟨s, hid, hs⟩ := truthyId_spec u (hids u humem)
      have hnext1 : (getUsers users c P none).next = some s := by
        rw [getUsers_next, happ]
        exact nextCursorOf_some _ u s hlast hid hs
      have hdecomp : r0 :: rest' = (l1 ++ [u]) ++ (r0 :: rest').drop P := by
        conv_lhs => rw [← List.take_append_drop P (r0 :: rest')]
        rw [hl1]
      have husers : users = (pre ++ l1) ++ u :: (r0 :: rest').drop P := by
        rw [hsplit]
        conv_lhs => rw [hdecomp]
        simp
      have happ2 : applyCursor users (some s) = (r0 :: rest').drop P := by
        conv_lhs => rw [husers]
        exact applyCursor_mem (pre ++ l1) u _ s (by rw [← husers]; exact hnd) hid hs
      have hlen2 : ((r0 :: rest').drop P).length < fuel := by
        rw [List.length_drop]
        simp only [List.length_cons] at hlen ⊢
        omega
      obtain ⟨hjoin, pg, hpg, hpgnext⟩ :=
        ih (some s) (pre ++ l1 ++ [u]) ((r0 :: rest').drop P)
          (by rw [husers]; simp) happ2 hlen2
      have hchain : listChain users P c (fuel + 1) =
          getUsers users c P none :: listChain users P (some s) fuel := by
        simp only [listChain]
        rw [hnext1]
      constructor
      · rw [hchain]
        simp only [List.map_cons, List.flatten_cons]
        rw [hdata, hjoin, List.take_append_drop]
      · have hne2 : listChain users P (some s) fuel ≠ [] := by
          intro h0
          rw [h0] at hpg
          simp [List.getLast?] at hpg
        refine ⟨pg, ?_, hpgnext⟩
        rw [hchain, getLast?_cons_of_ne_nil _ _ hne2]
        exact hpg

/-- C4: for records created in order (distinct, non-empty ids) and a page
size `P` in `[1, 100]`, repeatedly calling `getUsers` with the cursor set
to the previous call's `next`, starting from no cursor, visits exactly the
stored records, each exactly once, in insertion order, and the finite
chain of pages terminates with a page that has no `next`. -/
theorem pagination_complete (users : List Obj) (P : Nat)
    (hP1 : 1 ≤ P) (_hP2 : P ≤ 100)
    (hnd : (users.map (fun u => getField u "id")).Nodup)
    (hids : ∀ u ∈ users, truthyId u = true) :
    ((listChain users P none (users.length + 1)).map Page.data).flatten = users ∧
    ∃ pg, (listChain users P none (users.length + 1)).getLast? = some pg ∧
      pg.next = none :=
  listChain_spec users P hP1 hnd hids (users.length + 1) none [] users
    (by simp) rfl (by omega)

theorem pagination_complete_witness :
    ((1 : Nat) ≤ 2 ∧ (2 : Nat) ≤ 100 ∧
     (chainUsers.map (fun u => getField u "id")).Nodup ∧
     (∀ u ∈ chainUsers, truthyId u = true)) ∧
    (((listChain chainUsers 2 none (chainUsers.length + 1)).map Page.data).flatten =
        chainUsers ∧
     ∃ pg, (listChain chainUsers 2 none (chainUsers.length + 1)).getLast? = some pg ∧
       pg.next = none) :=
  ⟨⟨by decide, by decide, by decide, by decide⟩,
   pagination_complete chainUsers 2 (by decide) (by decide) (by decide) (by decide)⟩

end Restful
